import Mathlib

/-!
# Verification of the Foreman tool-manager core

A shallow embedding of the pure decision logic of the Foreman per-project
tool manager, translated from its Rust source, together with theorems
checking the natural-language specification against it.

Embedded components:
* release / asset data model (`src/tool_provider/mod.rs`);
* platform asset selection (`choose_asset`, `src/tool_cache.rs`) and the
  compile-time platform keyword lists (`src/artifact_choosing.rs`);
* version resolution in `ToolCache::download` and
  `ToolCache::download_if_necessary` (`src/tool_cache.rs`);
* cache-key derivation (`ToolSpec::cache_key`, `src/config.rs`);
* case-insensitive strings (`src/ci_string.rs`): equality and the byte
  stream fed to the hasher;
* manifest aggregation (`ConfigFile::fill_from` / `aggregate`,
  `src/config.rs`);
* the tool-cache index `load` and `save` operations (`src/tool_cache.rs`).

Machine integers do not occur in the embedded logic; indices are `Nat`.
External library calls (semantic-version parsing and requirement matching
from the `semver` crate, JSON (de)serialization from `serde_json`, the
Unicode lowercase map `char::to_lowercase`) are parameters of the embedded
functions, so every theorem holds for any implementation of those
collaborators.
-/

namespace Foreman

/-! ## Data model: releases and assets (src/tool_provider/mod.rs) -/

/-- `ReleaseAsset` from src/tool_provider/mod.rs: one downloadable file of a
release. Field order follows the source (`url`, then `name`). -/
structure ReleaseAsset where
  url : String
  name : String
deriving DecidableEq, Repr

/-- `Release` from src/tool_provider/mod.rs: a provider release, normalized
across backends. -/
structure Release where
  tag_name : String
  prerelease : Bool
  assets : List ReleaseAsset
deriving DecidableEq, Repr

/-! ## Substring matching

Rust `str::contains(&str)` returns true when the pattern occurs as a
contiguous substring (the empty pattern always matches). We embed it over
the character lists of the two strings. -/

/-- `containsSub s pat` holds when `pat` occurs as a contiguous sublist of
`s`; embeds Rust `str::contains` used by `choose_asset`. -/
def containsSub (s pat : List Char) : Bool :=
  pat.isPrefixOf s ||
    match s with
    | [] => false
    | _ :: t => containsSub t pat

/-- String-level wrapper for `containsSub`. -/
def strContains (s pat : String) : Bool :=
  containsSub s.toList pat.toList

/-! ## Iterator helpers

Direct translations of the Rust iterator adapters used by the source:
`Iterator::position` and `Iterator::find_map`. -/

/-- Rust `Iterator::position`: index of the first element satisfying `p`. -/
def position {α : Type _} (p : α → Bool) : List α → Option Nat
  | [] => none
  | a :: t => if p a then some 0 else (position p t).map (· + 1)

/-- Rust `Iterator::find_map`: first non-`none` image under `f`. -/
def find_map {α β : Type _} (f : α → Option β) : List α → Option β
  | [] => none
  | a :: t =>
    match f a with
    | some b => some b
    | none => find_map f t

/-! ## Asset selection (`choose_asset`, src/tool_cache.rs lines 24-41) -/

/-- `choose_asset` from src/tool_cache.rs: for each platform keyword in
order, scan the release's assets in order and return the index of the
first asset whose name contains the keyword. -/
def choose_asset (release : Release) (platform_keywords : List String) : Option Nat :=
  find_map
    (fun keyword => position (fun asset => strContains asset.name keyword) release.assets)
    platform_keywords

/-- `PLATFORM_KEYWORDS` for `target_os = "macos"`, `target_arch = "aarch64"`
(src/artifact_choosing.rs lines 26-34). -/
def PLATFORM_KEYWORDS_macos_aarch64 : List String :=
  ["macos-arm64", "darwin-arm64", "macos-aarch64", "darwin-aarch64", "macos", "darwin"]

/-! ## Version resolution (`ToolCache::download`, src/tool_cache.rs lines 102-195)

The semver-crate calls are parameters: `parse` stands for
`semver::Version::parse` (any `V` with a linear order stands for
`semver::Version`, whose `Ord` is total), and `version_req` for
`VersionReq::matches` of the tool's requirement. -/

/-- Rust `str::starts_with(char)`: the string's first character is `c`. -/
def startsWithChar (s : String) (c : Char) : Bool :=
  match s.toList with
  | [] => false
  | a :: _ => a == c

/-- Tag parsing inside `ToolCache::download` (src/tool_cache.rs lines
119-129): parse the tag directly; on failure, if the tag starts with `v`
(`starts_with('v')`), parse the remainder (`&tag_name[1..]`, which drops
the one-byte `v`), otherwise drop the release. -/
def parseReleaseTag {V : Type _} (parse : String → Option V) (tag : String) : Option V :=
  match parse tag with
  | some version => some version
  | none =>
    if startsWithChar tag 'v' then parse (tag.drop 1) else none

/-- The filter in `ToolCache::download` (src/tool_cache.rs lines 114-135):
keep releases whose tag parses and which have a platform-matching asset,
as `(version, asset_index, release)` triples. -/
def semverReleases {V : Type _} (parse : String → Option V)
    (keywords : List String) (releases : List Release) :
    List (V × Nat × Release) :=
  releases.filterMap fun release =>
    match parseReleaseTag parse release.tag_name with
    | none => none
    | some version =>
      match choose_asset release keywords with
      | none => none
      | some asset_index => some (version, asset_index, release)

/-- The comparator of `semver_releases.sort_by(|a, b| b.0.cmp(&a.0))`
(src/tool_cache.rs line 139): `a` precedes `b` when `b`'s version is at
most `a`'s. -/
def descendingByVersion {V : Type _} [LinearOrder V] (a b : V × Nat × Release) : Prop :=
  b.1 ≤ a.1

instance {V : Type _} [LinearOrder V] :
    DecidableRel (descendingByVersion (V := V)) :=
  fun a b => inferInstanceAs (Decidable (b.1 ≤ a.1))

instance {V : Type _} [LinearOrder V] :
    IsTotal (V × Nat × Release) (descendingByVersion (V := V)) :=
  ⟨fun a b => le_total b.1 a.1⟩

instance {V : Type _} [LinearOrder V] :
    IsTrans (V × Nat × Release) (descendingByVersion (V := V)) :=
  ⟨fun _ _ _ hab hbc => le_trans hbc hab⟩

/-- The sort in `ToolCache::download` (src/tool_cache.rs line 139). Rust's
`sort_by` is a stable sort, and a stable sort is determined uniquely by
its comparator, so insertion sort (which Mathlib shows stable) is a
faithful embedding. -/
def sortDescending {V : Type _} [LinearOrder V] (l : List (V × Nat × Release)) :
    List (V × Nat × Release) :=
  List.insertionSort descendingByVersion l

/-- The selection logic of `ToolCache::download` (src/tool_cache.rs lines
102-195): filter, sort descending, return the first triple whose version
matches the requirement, or else the full (sorted) candidate version list
as a `no compatible version` error. The installation side effects
(download, unzip, chmod, index update) are outside the pure model. -/
def downloadSelect {V : Type _} [LinearOrder V] (parse : String → Option V)
    (keywords : List String) (version_req : V → Bool)
    (releases : List Release) : Except (List V) (V × Nat × Release) :=
  let semver_releases := sortDescending (semverReleases parse keywords releases)
  match semver_releases.find? (fun x => version_req x.1) with
  | some matching_release => Except.ok matching_release
  | none => Except.error (semver_releases.map (fun x => x.1))

/-! ## Claim C2: `download_if_necessary` (src/tool_cache.rs lines 80-100)

The cache lookup `self.tools.get(&tool.cache_key())` is the `stored`
parameter; a `ToolEntry`'s `BTreeSet<Version>` iterates in ascending
order, and the source iterates it with `.rev()`, so `stored` carries the
ascending list of installed versions. The recursive `self.download` call
is the `download` parameter. -/

/-- `ToolCache::download_if_necessary` (src/tool_cache.rs lines 80-100):
if the cache key is present, return the first version of the reversed
(descending) stored list matching the requirement; otherwise fall back to
`download`. -/
def download_if_necessary {V E : Type _} (stored : Option (List V))
    (version_req : V → Bool) (download : Except E V) : Except E V :=
  match stored with
  | some versions =>
    match versions.reverse.find? version_req with
    | some version => Except.ok version
    | none => download
  | none => download

/-! ## Claim C10: `download` never consults the `prerelease` flag -/

/-- Normalizes a release's `prerelease` flag; two release lists that
differ only in their `prerelease` flags have the same image under
mapping with this. -/
def erasePrerelease (r : Release) : Release := { r with prerelease := false }

/-- Lifts `erasePrerelease` to the `(version, asset_index, release)`
triples of the download pipeline. -/
def eraseTriple {V : Type _} (t : V × Nat × Release) : V × Nat × Release :=
  (t.1, t.2.1, erasePrerelease t.2.2)

/-! ## Case-insensitive strings (src/ci_string.rs)

The Unicode lowercase mapping `char::to_lowercase` (which may expand one
character to several) lives in the Rust core library, outside the
repository; it is the `lower` parameter throughout, so every theorem
holds for any such mapping. -/

/-- The flat-mapped lowercase character sequence of a string:
`self.0.chars().flat_map(char::to_lowercase)`. -/
def lowerSeq (lower : Char → List Char) (s : String) : List Char :=
  s.toList.flatMap lower

/-- `PartialEq for CiString` (src/ci_string.rs lines 42-49): two strings
are equal when their flat-mapped lowercase character sequences are. -/
def ciEq (lower : Char → List Char) (a b : String) : Prop :=
  lowerSeq lower a = lowerSeq lower b

instance (lower : Char → List Char) (a b : String) : Decidable (ciEq lower a b) :=
  inferInstanceAs (Decidable (lowerSeq lower a = lowerSeq lower b))

/-- `char::encode_utf8`: the UTF-8 encoding of a character, 1 to 4 bytes,
as natural numbers below 256 (Rust core library, external). -/
def utf8EncodeChar (c : Char) : List Nat :=
  let n := c.toNat
  if n < 0x80 then [n]
  else if n < 0x800 then [0xC0 + n / 64, 0x80 + n % 64]
  else if n < 0x10000 then [0xE0 + n / 4096, 0x80 + n / 64 % 64, 0x80 + n % 64]
  else [0xF0 + n / 262144, 0x80 + n / 4096 % 64, 0x80 + n / 64 % 64, 0x80 + n % 64]

/-- One iteration of the `Hash for CiString` loop (src/ci_string.rs lines
31-35): `normalized.encode_utf8(&mut buf)` overwrites only the first
`len` bytes of the 4-byte buffer, so the rest keeps residual bytes from
earlier characters. -/
def hashBufStep (buf : List Nat) (c : Char) : List Nat :=
  utf8EncodeChar c ++ buf.drop (utf8EncodeChar c).length

/-- The successive 4-byte buffer states passed to `state.write(&buf)`,
one per lowercased character, threading the residual bytes. -/
def hashBufs (buf : List Nat) : List Char → List (List Nat)
  | [] => []
  | c :: cs => hashBufStep buf c :: hashBufs (hashBufStep buf c) cs

/-- `Hash for CiString` (src/ci_string.rs lines 28-40): the exact byte
sequence fed to the hasher — each 4-byte buffer state in turn, starting
from a zeroed buffer, then the terminating `0xff` of `write_u8`. -/
def ciHashStream (lower : Char → List Char) (s : String) : List Nat :=
  (hashBufs [0, 0, 0, 0] (lowerSeq lower s)).flatten ++ [0xff]

/-! ## Tool specifications and cache keys (src/config.rs) -/

/-- `Protocol` (src/config.rs lines 26-31). -/
inductive Protocol
  | github
  | gitlab
  | artifactory
deriving DecidableEq, Repr

/-- `ToolSpec` (src/config.rs lines 19-25), restricted to the fields read
by `cache_key`; the `host` URL is represented by its serialization, and
the semver `version` requirement (never read by `cache_key`) is omitted. -/
structure ToolSpec where
  host : String
  path : String
  protocol : Protocol
deriving DecidableEq, Repr

/-- `ToolSpec::cache_key` (src/config.rs lines 97-103): the `CiString`
contents produced for each protocol (`format!` concatenation). -/
def cache_key (t : ToolSpec) : String :=
  match t.protocol with
  | Protocol.github => t.path
  | Protocol.gitlab => "gitlab@" ++ t.path
  | Protocol.artifactory => t.host ++ "@" ++ t.path

/-! ## Manifest aggregation (src/config.rs lines 214-330)

`ConfigFile.tools` is a `BTreeMap<String, ToolSpec>` and `hosts` a
`HashMap<String, Host>`; both guarantee unique keys and are embedded as
association lists, `get` becoming association-list lookup. -/

/-- `Host` (src/config.rs lines 148-152), the URL by its serialization. -/
structure Host where
  source : String
  protocol : Protocol
deriving DecidableEq, Repr

/-- Association-list lookup: `BTreeMap::get` / `HashMap::get`. -/
def alookup {K A : Type _} [DecidableEq K] (k : K) : List (K × A) → Option A
  | [] => none
  | (k', v) :: t => if k' = k then some v else alookup k t

/-- `map.entry(key).or_insert(value)`: insert only when the key is
absent, as in `ConfigFile::fill_from`. -/
def insertIfAbsent {K A : Type _} [DecidableEq K] (m : List (K × A)) (k : K) (v : A) :
    List (K × A) :=
  match alookup k m with
  | some _ => m
  | none => m ++ [(k, v)]

/-- One component of `ConfigFile::fill_from`: fold every entry of `other`
into `self`, keeping existing entries. -/
def fillMap {K A : Type _} [DecidableEq K] (self other : List (K × A)) : List (K × A) :=
  other.foldl (fun acc kv => insertIfAbsent acc kv.1 kv.2) self

/-- `ConfigFile` (src/config.rs lines 142-146). -/
structure ConfigFile where
  tools : List (String × ToolSpec)
  hosts : List (String × Host)

/-- `ConfigFile::fill_from` (src/config.rs lines 276-284): first-write-wins
merge of `other` into `self`, for tools and hosts alike. -/
def fill_from (self other : ConfigFile) : ConfigFile :=
  { tools := fillMap self.tools other.tools
    hosts := fillMap self.hosts other.hosts }

/-- `ConfigFile::new_with_defaults` (src/config.rs lines 215-233): no
tools, and the three default host entries. -/
def new_with_defaults : ConfigFile :=
  { tools := []
    hosts :=
      [("source", { source := "https://github.com", protocol := Protocol.github }),
       ("github", { source := "https://github.com", protocol := Protocol.github }),
       ("gitlab", { source := "https://gitlab.com", protocol := Protocol.gitlab })] }

/-- `ConfigFile::aggregate` (src/config.rs lines 286-329), abstracted over
the chain of successfully parsed configuration files in processing order:
each ancestor directory's `foreman.toml` from the working directory
upward, then the user-global file; each is folded into the accumulator
with `fill_from`. -/
def aggregate (chain : List ConfigFile) : ConfigFile :=
  chain.foldl fill_from new_with_defaults

/-! ## Persistence: `ToolCache::load` / `ToolCache::save`
(src/tool_cache.rs lines 197-216) -/

/-- The observable state of the index file when `load` runs. -/
inductive FileState
  | absent
  | present (contents : String)
  | ioError
deriving DecidableEq, Repr

/-- The errors `load` can surface. -/
inductive LoadError
  | ioError
  | toolCacheParsing
deriving DecidableEq, Repr

/-- `ToolCache::load` (src/tool_cache.rs lines 197-210). `fs::try_read` is
modelled from the spec: it yields "absent" when the index file does not
exist, the contents when it does, and surfaces any other I/O error
(spec §4.C; the `fs.rs` revision containing `try_read` is not among the
sources, which hold an earlier revision of that module).
`serde_json::from_slice` is the `parse` parameter and `C` the
deserialized `ToolCache`; `empty` is `ToolCache::new`. -/
def loadToolCache {C : Type _} (empty : C) (parse : String → Option C)
    (file : FileState) : Except LoadError C :=
  match file with
  | FileState.ioError => Except.error LoadError.ioError
  | FileState.absent => Except.ok empty
  | FileState.present contents =>
    match parse contents with
    | some cache => Except.ok cache
    | none => Except.error LoadError.toolCacheParsing

/-- Failure points of an in-place file write. -/
inductive WriteFault
  | createFail
  | partialFail (k : Nat)
deriving DecidableEq, Repr

/-- The `fs::write` used by `ToolCache::save`: a thin wrapper over
`std::fs::write` (src/fs.rs lines 25-29), which opens the destination
with create+truncate and writes the bytes in place — there is no
temporary file or rename. `fault` injects the failure points: `none` —
success; `createFail` — the open fails, the file keeps its previous
state; `partialFail k` — the open truncated the file and only the first
`k` bytes (characters in this model) were written before the failure. -/
def fsWriteFile (old : Option String) (contents : String)
    (fault : Option WriteFault) : Option String :=
  match fault with
  | none => some contents
  | some WriteFault.createFail => old
  | some (WriteFault.partialFail k) => some (contents.take k)

/-- `ToolCache::save` (src/tool_cache.rs lines 212-216): serialize the
cache (the `serde_json::to_string_pretty` output is the `serialized`
parameter) and write the index file in place with `fs::write`. -/
def saveToolCache (old : Option String) (serialized : String)
    (fault : Option WriteFault) : Option String :=
  fsWriteFile old serialized fault

/-! ## Concrete sample data for witnesses -/

/-- A sample stand-in for `semver::Version::parse`, defined on the two
version strings used by the sample releases. -/
def sampleParse : String → Option Nat :=
  fun s => if s = "1.0.0" then some 1 else if s = "2.0.0" then some 2 else none

/-- A sample release with a `v`-prefixed tag and a Linux asset. -/
def sampleRelease1 : Release :=
  { tag_name := "v1.0.0"
    prerelease := false
    assets := [{ url := "https://example.com/1", name := "tool-linux.zip" }] }

/-- A sample release with a bare tag and a Linux asset. -/
def sampleRelease2 : Release :=
  { tag_name := "2.0.0"
    prerelease := false
    assets := [{ url := "https://example.com/2", name := "tool-linux.zip" }] }

/-- `sampleRelease1` with its prerelease flag flipped. -/
def sampleRelease1Pre : Release :=
  { sampleRelease1 with prerelease := true }

/-! ### Helper lemmas about `position` and `find_map` -/

theorem position_eq_none {α : Type _} {p : α → Bool} :
    ∀ {l : List α}, position p l = none ↔ ∀ a ∈ l, p a = false := by
  intro l
  induction l with
  | nil => simp [position]
  | cons a t ih =>
    by_cases h : p a = true
    · simp [position, h]
    · simp only [Bool.not_eq_true] at h
      simp [position, h, ih]

theorem position_eq_some {α : Type _} {p : α → Bool} :
    ∀ {l : List α} {i : Nat}, position p l = some i →
      ∃ a, l[i]? = some a ∧ p a = true ∧
        ∀ j, j < i → ∀ b, l[j]? = some b → p b = false := by
  intro l
  induction l with
  | nil => intro i h; simp [position] at h
  | cons a t ih =>
    intro i h
    by_cases ha : p a = true
    · simp only [position, ha, if_pos] at h
      cases h
      exact ⟨a, by simp, ha, fun j hj b hb => absurd hj (Nat.not_lt_zero j)⟩
    · simp only [Bool.not_eq_true] at ha
      have h' : (position p t).map (· + 1) = some i := by
        simpa [position, ha] using h
      obtain ⟨i', hi', rfl⟩ := Option.map_eq_some'.mp h'
      obtain ⟨b, hb, hpb, hmin⟩ := ih hi'
      refine ⟨b, by simpa using hb, hpb, ?_⟩
      intro j hj c hc
      cases j with
      | zero =>
        have hca : a = c := by simpa using hc
        subst hca; exact ha
      | succ j =>
        exact hmin j (Nat.lt_of_succ_lt_succ hj) c (by simpa using hc)

theorem find_map_eq_none {α β : Type _} {f : α → Option β} :
    ∀ {l : List α}, find_map f l = none ↔ ∀ a ∈ l, f a = none := by
  intro l
  induction l with
  | nil => simp [find_map]
  | cons a t ih =>
    cases h : f a with
    | some b => simp [find_map, h]
    | none => simp [find_map, h, ih]

theorem find_map_eq_some {α β : Type _} {f : α → Option β} :
    ∀ {l : List α} {b : β}, find_map f l = some b →
      ∃ pre a post, l = pre ++ a :: post ∧ f a = some b ∧
        ∀ a' ∈ pre, f a' = none := by
  intro l
  induction l with
  | nil => intro b h; simp [find_map] at h
  | cons a t ih =>
    intro b h
    cases ha : f a with
    | some b' =>
      simp only [find_map, ha] at h
      cases h
      exact ⟨[], a, t, rfl, ha, by simp⟩
    | none =>
      simp only [find_map, ha] at h
      obtain ⟨pre, a', post, rfl, hfa', hpre⟩ := ih h
      refine ⟨a :: pre, a', post, rfl, hfa', ?_⟩
      intro x hx
      rcases List.mem_cons.mp hx with rfl | hx
      · exact ha
      · exact hpre x hx

theorem position_name_congr (keyword : String) :
    ∀ (l l' : List ReleaseAsset),
      l.map ReleaseAsset.name = l'.map ReleaseAsset.name →
      position (fun asset => strContains asset.name keyword) l =
        position (fun asset => strContains asset.name keyword) l' := by
  intro l
  induction l with
  | nil =>
    intro l' h
    simp only [List.map_nil] at h
    rw [(List.map_eq_nil_iff.mp h.symm)]
  | cons a t ih =>
    intro l' h
    cases l' with
    | nil => simp at h
    | cons a' t' =>
      simp only [List.map_cons, List.cons.injEq] at h
      obtain ⟨hname, htail⟩ := h
      simp [position, hname, ih t' htail]

/-! ## Claim C3: asset selection -/

/-- C3. For every release and keyword list, `choose_asset` iterates the
keywords in order and, for each keyword, scans the assets in listed order,
returning the index of the first asset whose name contains that keyword
(the earliest keyword with any match wins); it returns `none` iff no asset
name contains any keyword; and the result depends only on the ordered
asset names. -/
theorem choose_asset_spec (release : Release) (keywords : List String) :
    (choose_asset release keywords = none ↔
      ∀ k ∈ keywords, ∀ a ∈ release.assets, strContains a.name k = false) ∧
    (∀ i, choose_asset release keywords = some i →
      ∃ pre k post, keywords = pre ++ k :: post ∧
        (∀ k' ∈ pre, ∀ a ∈ release.assets, strContains a.name k' = false) ∧
        (∃ a, release.assets[i]? = some a ∧ strContains a.name k = true) ∧
        (∀ j, j < i → ∀ b, release.assets[j]? = some b →
          strContains b.name k = false)) ∧
    (∀ release' : Release,
      release'.assets.map ReleaseAsset.name = release.assets.map ReleaseAsset.name →
      choose_asset release' keywords = choose_asset release keywords) := by
  refine ⟨?_, ?_, ?_⟩
  · rw [choose_asset, find_map_eq_none]
    constructor
    · intro h k hk a ha
      have := position_eq_none.mp (h k hk)
      exact this a ha
    · intro h k hk
      exact position_eq_none.mpr (fun a ha => h k hk a ha)
  · intro i h
    obtain ⟨pre, k, post, hsplit, hpos, hpre⟩ := find_map_eq_some h
    obtain ⟨a, hai, hcontains, hmin⟩ := position_eq_some hpos
    refine ⟨pre, k, post, hsplit, ?_, ⟨a, hai, hcontains⟩, hmin⟩
    intro k' hk' a' ha'
    have := position_eq_none.mp (hpre k' hk')
    exact this a' ha'
  · intro release' hnames
    unfold choose_asset
    congr 1
    funext keyword
    exact position_name_congr keyword release'.assets release.assets hnames

/-! ## Claim C4: macOS aarch64 platform keywords -/

/-- C4 counterexample. The compile-time keyword list for a macOS aarch64
host is not the claimed list containing the x86-64 fallbacks
`macos-x86_64` / `darwin-x86_64`: the source list carries the aarch64
synonyms `macos-aarch64` / `darwin-aarch64` instead. -/
theorem platform_keywords_macos_aarch64_ne_claimed :
    PLATFORM_KEYWORDS_macos_aarch64 ≠
      ["macos-arm64", "darwin-arm64", "macos-x86_64", "darwin-x86_64",
        "macos", "darwin"] := by
  decide

/-- C4 amended. On a macOS aarch64 host the compile-time keyword list is
exactly `["macos-arm64","darwin-arm64","macos-aarch64","darwin-aarch64",
"macos","darwin"]`; a release whose only macOS asset is named with
`macos-x86_64` still has that asset selected, but via the generic `macos`
keyword rather than an explicit x86-64 fallback entry. -/
theorem platform_keywords_macos_aarch64_spec :
    PLATFORM_KEYWORDS_macos_aarch64 =
      ["macos-arm64", "darwin-arm64", "macos-aarch64", "darwin-aarch64",
        "macos", "darwin"] ∧
    choose_asset
      { tag_name := "v0.5.2"
        prerelease := false
        assets :=
          [{ url := "https://example.com/some/repo/releases/assets/1"
             name := "tool-linux.zip" },
           { url := "https://example.com/some/repo/releases/assets/3"
             name := "tool-macos-x86_64.zip" },
           { url := "https://example.com/some/repo/releases/assets/4"
             name := "tool-win64.zip" }] }
      PLATFORM_KEYWORDS_macos_aarch64 = some 1 := by
  exact ⟨rfl, by decide⟩

/-- In a list sorted weakly descending on `key`, the first element
satisfying `p` has the greatest key among all elements satisfying `p`. -/
theorem find?_max_of_sorted {α V : Type _} [LinearOrder V] (key : α → V)
    {p : α → Bool} {t : α} :
    ∀ {l : List α}, List.Sorted (fun a b => key b ≤ key a) l →
      l.find? p = some t → ∀ x ∈ l, p x = true → key x ≤ key t := by
  intro l
  induction l with
  | nil => intro _ h; simp at h
  | cons a tl ih =>
    intro hsorted hfind x hx hpx
    obtain ⟨hrel, htl⟩ := List.sorted_cons.mp hsorted
    by_cases hpa : p a = true
    · rw [List.find?_cons_of_pos _ hpa] at hfind
      cases hfind
      rcases List.mem_cons.mp hx with rfl | hx
      · exact le_refl _
      · exact hrel x hx
    · rw [List.find?_cons_of_neg _ hpa] at hfind
      rcases List.mem_cons.mp hx with rfl | hx
      · exact absurd hpx hpa
      · exact ih htl hfind x hx hpx

/-! ## Claim C1: `download` version selection -/

/-- C1. `downloadSelect` keeps exactly the releases whose tag parses as a
version (directly, or with one leading `v` stripped; otherwise dropped)
and which have a platform-matching asset; sorts the survivors descending
by version (a permutation, weakly descending; ties follow the version
order); returns the first survivor satisfying the requirement — a
matching survivor of maximal version; and when no survivor matches it
fails carrying exactly the survivors' version list. -/
theorem download_select_spec {V : Type _} [LinearOrder V]
    (parse : String → Option V) (keywords : List String)
    (version_req : V → Bool) (releases : List Release) :
    (∀ v i r, (v, i, r) ∈ semverReleases parse keywords releases ↔
      r ∈ releases ∧ parseReleaseTag parse r.tag_name = some v ∧
        choose_asset r keywords = some i) ∧
    (∀ tag v, parseReleaseTag parse tag = some v ↔
      parse tag = some v ∨
        (parse tag = none ∧ startsWithChar tag 'v' = true ∧
          parse (tag.drop 1) = some v)) ∧
    (sortDescending (semverReleases parse keywords releases)).Perm
      (semverReleases parse keywords releases) ∧
    List.Sorted descendingByVersion
      (sortDescending (semverReleases parse keywords releases)) ∧
    (∀ v i r, downloadSelect parse keywords version_req releases =
        Except.ok (v, i, r) →
      (v, i, r) ∈ semverReleases parse keywords releases ∧
        version_req v = true ∧
        ∀ v' i' r', (v', i', r') ∈ semverReleases parse keywords releases →
          version_req v' = true → v' ≤ v) ∧
    (∀ vs, downloadSelect parse keywords version_req releases =
        Except.error vs →
      (∀ v' i' r', (v', i', r') ∈ semverReleases parse keywords releases →
        version_req v' = false) ∧
      vs = (sortDescending (semverReleases parse keywords releases)).map
        (fun x => x.1) ∧
      vs.Perm ((semverReleases parse keywords releases).map (fun x => x.1))) := by
  have hperm : (sortDescending (semverReleases parse keywords releases)).Perm
      (semverReleases parse keywords releases) :=
    List.perm_insertionSort _ _
  have hsorted : List.Sorted descendingByVersion
      (sortDescending (semverReleases parse keywords releases)) :=
    List.sorted_insertionSort _ _
  refine ⟨?_, ?_, hperm, hsorted, ?_, ?_⟩
  · intro v i r
    constructor
    · intro h
      obtain ⟨a, ha, hfa⟩ := List.mem_filterMap.mp h
      cases hp : parseReleaseTag parse a.tag_name with
      | none => rw [hp] at hfa; exact absurd hfa (by simp)
      | some w =>
        cases hc : choose_asset a keywords with
        | none => rw [hp, hc] at hfa; exact absurd hfa (by simp)
        | some j =>
          rw [hp, hc] at hfa
          obtain ⟨rfl, rfl, rfl⟩ : w = v ∧ j = i ∧ a = r := by
            simpa using hfa
          exact ⟨ha, hp, hc⟩
    · rintro ⟨hr, hp, hc⟩
      exact List.mem_filterMap.mpr ⟨r, hr, by rw [hp, hc]⟩
  · intro tag v
    cases hp : parse tag with
    | some w => simp [parseReleaseTag, hp]
    | none =>
      by_cases hv : startsWithChar tag 'v' = true
      · simp [parseReleaseTag, hp, hv]
      · simp only [Bool.not_eq_true] at hv
        simp [parseReleaseTag, hp, hv]
  · intro v i r h
    rw [downloadSelect] at h
    cases hf : (sortDescending (semverReleases parse keywords releases)).find?
        (fun x => version_req x.1) with
    | none => rw [hf] at h; exact absurd h (by simp)
    | some t =>
      rw [hf] at h
      have ht : t = (v, i, r) := by simpa using h
      subst ht
      refine ⟨hperm.subset (List.mem_of_find?_eq_some hf),
        by simpa using List.find?_some hf, ?_⟩
      intro v' i' r' hmem hreq
      exact find?_max_of_sorted Prod.fst hsorted hf (v', i', r')
        (hperm.symm.subset hmem) hreq
  · intro vs h
    rw [downloadSelect] at h
    cases hf : (sortDescending (semverReleases parse keywords releases)).find?
        (fun x => version_req x.1) with
    | some t => rw [hf] at h; exact absurd h (by simp)
    | none =>
      rw [hf] at h
      have hvs : vs = (sortDescending (semverReleases parse keywords releases)).map
          (fun x => x.1) := by
        have := h
        simp only [Except.error.injEq] at this
        exact this.symm
      refine ⟨?_, hvs, ?_⟩
      · intro v' i' r' hmem
        have := List.find?_eq_none.mp hf (v', i', r') (hperm.symm.subset hmem)
        simpa using this
      · rw [hvs]
        exact hperm.map _

/-- C2. For a cache key present with ascending stored versions, if some
stored version matches the requirement then `download_if_necessary`
returns the maximum matching stored version and never consults the
provider (the result is independent of the `download` fallback); only
when no stored version matches, or the key is absent, does it return the
result of `download`. -/
theorem download_if_necessary_spec {V E : Type _} [LinearOrder V]
    (versions : List V) (version_req : V → Bool)
    (hsorted : List.Sorted (· < ·) versions)
    (download download' : Except E V) :
    ((∃ v ∈ versions, version_req v = true) →
      ∃ v ∈ versions, version_req v = true ∧
        (∀ w ∈ versions, version_req w = true → w ≤ v) ∧
        download_if_necessary (some versions) version_req download =
          Except.ok v ∧
        download_if_necessary (some versions) version_req download =
          download_if_necessary (some versions) version_req download') ∧
    ((∀ v ∈ versions, version_req v = false) →
      download_if_necessary (some versions) version_req download = download) ∧
    download_if_necessary (none : Option (List V)) version_req download =
      download := by
  have hrev : List.Sorted (fun a b => b ≤ a) versions.reverse := by
    rw [List.Sorted, List.pairwise_reverse]
    exact hsorted.imp le_of_lt
  refine ⟨?_, ?_, rfl⟩
  · rintro ⟨v, hv, hreq⟩
    have hsome : (versions.reverse.find? version_req).isSome = true :=
      List.find?_isSome.mpr ⟨v, List.mem_reverse.mpr hv, hreq⟩
    obtain ⟨w, hw⟩ := Option.isSome_iff_exists.mp hsome
    refine ⟨w, List.mem_reverse.mp (List.mem_of_find?_eq_some hw),
      List.find?_some hw, ?_, ?_, ?_⟩
    · intro x hx hpx
      exact find?_max_of_sorted id hrev hw x (List.mem_reverse.mpr hx) hpx
    · rw [download_if_necessary, hw]
    · rw [download_if_necessary, hw, download_if_necessary, hw]
  · intro hnone
    have hf : versions.reverse.find? version_req = none :=
      List.find?_eq_none.mpr fun x hx => by
        rw [hnone x (List.mem_reverse.mp hx)]; simp
    rw [download_if_necessary, hf]

theorem semverReleases_erasePrerelease {V : Type _} (parse : String → Option V)
    (keywords : List String) (releases : List Release) :
    semverReleases parse keywords (releases.map erasePrerelease) =
      (semverReleases parse keywords releases).map eraseTriple := by
  rw [semverReleases, semverReleases, List.filterMap_map, List.map_filterMap]
  apply List.filterMap_congr
  intro r _
  show (match parseReleaseTag parse r.tag_name with
    | none => none
    | some version =>
      match choose_asset r keywords with
      | none => none
      | some asset_index => some (version, asset_index, erasePrerelease r)) = _
  cases parseReleaseTag parse r.tag_name with
  | none => rfl
  | some v =>
    cases choose_asset r keywords with
    | none => rfl
    | some i => rfl

theorem orderedInsert_eraseTriple {V : Type _} [LinearOrder V]
    (a : V × Nat × Release) (l : List (V × Nat × Release)) :
    List.orderedInsert descendingByVersion (eraseTriple a) (l.map eraseTriple) =
      (List.orderedInsert descendingByVersion a l).map eraseTriple := by
  induction l with
  | nil => rfl
  | cons b t ih =>
    by_cases h : descendingByVersion a b
    · have h' : descendingByVersion (eraseTriple a) (eraseTriple b) := h
      simp only [List.map_cons, List.orderedInsert, if_pos h, if_pos h',
        List.map_cons]
    · have h' : ¬ descendingByVersion (eraseTriple a) (eraseTriple b) := h
      simp only [List.map_cons, List.orderedInsert, if_neg h, if_neg h',
        List.map_cons, ih]

theorem sortDescending_eraseTriple {V : Type _} [LinearOrder V]
    (l : List (V × Nat × Release)) :
    sortDescending (l.map eraseTriple) = (sortDescending l).map eraseTriple := by
  induction l with
  | nil => rfl
  | cons a t ih =>
    show List.orderedInsert descendingByVersion (eraseTriple a)
        (sortDescending (t.map eraseTriple)) =
      (List.orderedInsert descendingByVersion a (sortDescending t)).map eraseTriple
    rw [ih]
    exact orderedInsert_eraseTriple a (sortDescending t)

theorem find?_eraseTriple {V : Type _} (version_req : V → Bool)
    (l : List (V × Nat × Release)) :
    (l.map eraseTriple).find? (fun x => version_req x.1) =
      (l.find? (fun x => version_req x.1)).map eraseTriple := by
  induction l with
  | nil => rfl
  | cons a t ih =>
    by_cases h : version_req a.1 = true
    · simp only [List.map_cons, List.find?_cons, eraseTriple, h]
      rfl
    · simp only [Bool.not_eq_true] at h
      simp only [List.map_cons, List.find?_cons, eraseTriple, h]
      exact ih

theorem downloadSelect_erasePrerelease {V : Type _} [LinearOrder V]
    (parse : String → Option V) (keywords : List String)
    (version_req : V → Bool) (releases : List Release) :
    downloadSelect parse keywords version_req (releases.map erasePrerelease) =
      Except.map eraseTriple (downloadSelect parse keywords version_req releases) := by
  rw [downloadSelect, downloadSelect, semverReleases_erasePrerelease,
    sortDescending_eraseTriple, find?_eraseTriple]
  cases (sortDescending (semverReleases parse keywords releases)).find?
      (fun x => version_req x.1) with
  | some t => rfl
  | none =>
    show Except.error _ = Except.error _
    rw [List.map_map]
    rfl

/-- C10. For two provider release lists that differ only in the
`prerelease` flags of their releases, `download` selects the same
version, the same asset index, and the same release up to that flag (in
particular the same asset list and URL), and fails with the same
candidate version list: the `prerelease` field is never consulted. -/
theorem download_select_ignores_prerelease {V : Type _} [LinearOrder V]
    (parse : String → Option V) (keywords : List String)
    (version_req : V → Bool) (releases releases' : List Release)
    (h : releases.map erasePrerelease = releases'.map erasePrerelease) :
    Except.map eraseTriple (downloadSelect parse keywords version_req releases) =
      Except.map eraseTriple
        (downloadSelect parse keywords version_req releases') := by
  rw [← downloadSelect_erasePrerelease, ← downloadSelect_erasePrerelease, h]

/-! ## Claim C9: hash/equality coherence for `CiString` -/

/-- C9. Any two `CiString` values that compare equal (equality is over
the flat-mapped Unicode lowercase of each character) feed identical byte
sequences to the hasher, even though the 4-byte scratch buffer retains
residual bytes from the previous character: the buffer evolution is a
function of the lowercased character sequence alone, so equal cache keys
always hash equally and `HashMap` lookups keyed by `CiString` are sound. -/
theorem ciString_hash_coherent (lower : Char → List Char) (a b : String)
    (h : ciEq lower a b) : ciHashStream lower a = ciHashStream lower b := by
  unfold ciHashStream
  rw [show lowerSeq lower a = lowerSeq lower b from h]

theorem flatMap_fixed {lower : Char → List Char} :
    ∀ {cs : List Char}, (∀ c ∈ cs, lower c = [c]) → cs.flatMap lower = cs := by
  intro cs
  induction cs with
  | nil => intro _; rfl
  | cons c t ih =>
    intro h
    rw [List.flatMap_cons, h c (List.mem_cons_self c t),
      ih fun x hx => h x (List.mem_cons_of_mem c hx)]
    rfl

theorem lowerSeq_append (lower : Char → List Char) (x y : String) :
    lowerSeq lower (x ++ y) = lowerSeq lower x ++ lowerSeq lower y := by
  unfold lowerSeq
  rw [show (x ++ y).toList = x.toList ++ y.toList by simp, List.flatMap_append]

/-! ## Claim C6: cache keys -/

/-- C6. The cache key is the spec's path byte-for-byte for the github
protocol, `"gitlab@"` + path for gitlab, and host + `"@"` + path for
artifactory; consequently, whenever a github spec's path and a gitlab
spec's path are equal up to case, the two cache keys are distinct even
case-insensitively (for any Unicode lowercase map fixing the ASCII
characters of `"gitlab@"`). -/
theorem cache_key_spec (lower : Char → List Char)
    (hfix : ∀ c ∈ "gitlab@".toList, lower c = [c])
    (g l : ToolSpec) (hg : g.protocol = Protocol.github)
    (hl : l.protocol = Protocol.gitlab)
    (hpaths : ciEq lower g.path l.path) :
    cache_key g = g.path ∧
    cache_key l = "gitlab@" ++ l.path ∧
    (∀ a : ToolSpec, a.protocol = Protocol.artifactory →
      cache_key a = a.host ++ "@" ++ a.path) ∧
    ¬ ciEq lower (cache_key g) (cache_key l) := by
  have key1 : cache_key g = g.path := by simp [cache_key, hg]
  have key2 : cache_key l = "gitlab@" ++ l.path := by simp [cache_key, hl]
  refine ⟨key1, key2, fun a ha => by simp [cache_key, ha], ?_⟩
  intro hciEq
  rw [ciEq, key1, key2, lowerSeq_append] at hciEq
  have hpre : lowerSeq lower "gitlab@" = "gitlab@".toList := flatMap_fixed hfix
  rw [hpre] at hciEq
  have hlen := congrArg List.length hciEq
  rw [List.length_append] at hlen
  have hlen2 := congrArg List.length (hpaths : lowerSeq lower g.path = lowerSeq lower l.path)
  have h7 : ("gitlab@".toList).length = 7 := by decide
  omega

theorem alookup_append {K A : Type _} [DecidableEq K] (k : K) :
    ∀ (m m' : List (K × A)),
      alookup k (m ++ m') = (alookup k m).orElse (fun _ => alookup k m') := by
  intro m m'
  induction m with
  | nil => simp [alookup, Option.orElse]
  | cons a t ih =>
    obtain ⟨k', v⟩ := a
    by_cases h : k' = k
    · simp [alookup, h, Option.orElse]
    · simp [alookup, h, Option.orElse, ih]

theorem alookup_eq_none_iff {K A : Type _} [DecidableEq K] (k : K) :
    ∀ (m : List (K × A)), alookup k m = none ↔ k ∉ m.map Prod.fst := by
  intro m
  induction m with
  | nil => simp [alookup]
  | cons a t ih =>
    obtain ⟨k', v⟩ := a
    by_cases h : k' = k
    · subst h
      simp [alookup]
    · have hk : ¬ k = k' := fun hk => h hk.symm
      rw [show alookup k ((k', v) :: t) = alookup k t from if_neg h, ih]
      simp [hk]

theorem alookup_insertIfAbsent {K A : Type _} [DecidableEq K]
    (m : List (K × A)) (j : K) (v : A) (k : K) :
    alookup k (insertIfAbsent m j v) =
      (alookup k m).orElse (fun _ => if j = k then some v else none) := by
  rw [insertIfAbsent]
  cases hj : alookup j m with
  | some w =>
    by_cases h : j = k
    · subst h
      rw [hj]
      rfl
    · cases hk : alookup k m <;> simp [Option.orElse, h]
  | none =>
    rw [alookup_append]
    congr 1

theorem alookup_fillMap {K A : Type _} [DecidableEq K] (k : K) :
    ∀ (other self : List (K × A)),
      alookup k (fillMap self other) =
        (alookup k self).orElse (fun _ => alookup k other) := by
  intro other
  induction other with
  | nil =>
    intro self
    cases h : alookup k self <;> simp [fillMap, h, Option.orElse, alookup]
  | cons a t ih =>
    intro self
    obtain ⟨j, v⟩ := a
    show alookup k (fillMap (insertIfAbsent self j v) t) = _
    rw [ih, alookup_insertIfAbsent]
    cases hs : alookup k self with
    | some w => simp [Option.orElse, alookup]
    | none =>
      by_cases h : j = k <;>
        simp [Option.orElse, alookup, h]

theorem insertIfAbsent_nodupKeys {K A : Type _} [DecidableEq K]
    {m : List (K × A)} (j : K) (v : A) (h : (m.map Prod.fst).Nodup) :
    ((insertIfAbsent m j v).map Prod.fst).Nodup := by
  rw [insertIfAbsent]
  cases hj : alookup j m with
  | some w => exact h
  | none =>
    have hnotin : j ∉ m.map Prod.fst := (alookup_eq_none_iff j m).mp hj
    rw [List.map_append]
    simp only [List.map_cons, List.map_nil]
    refine List.Nodup.append h (List.nodup_singleton j) ?_
    intro x hx hxj
    rw [List.mem_singleton] at hxj
    subst hxj
    exact hnotin hx

theorem fillMap_nodupKeys {K A : Type _} [DecidableEq K] :
    ∀ (other self : List (K × A)), (self.map Prod.fst).Nodup →
      ((fillMap self other).map Prod.fst).Nodup := by
  intro other
  induction other with
  | nil => intro self h; exact h
  | cons a t ih =>
    intro self h
    exact ih _ (insertIfAbsent_nodupKeys a.1 a.2 h)

theorem foldl_fillMap_nodupKeys {K A : Type _} [DecidableEq K] :
    ∀ (ms : List (List (K × A))) (init : List (K × A)),
      (init.map Prod.fst).Nodup →
      ((ms.foldl fillMap init).map Prod.fst).Nodup := by
  intro ms
  induction ms with
  | nil => intro init h; exact h
  | cons m t ih =>
    intro init h
    exact ih _ (fillMap_nodupKeys m init h)

theorem aggregate_components :
    ∀ (chain : List ConfigFile) (init : ConfigFile),
      (chain.foldl fill_from init).tools =
        (chain.map ConfigFile.tools).foldl fillMap init.tools ∧
      (chain.foldl fill_from init).hosts =
        (chain.map ConfigFile.hosts).foldl fillMap init.hosts := by
  intro chain
  induction chain with
  | nil => intro init; exact ⟨rfl, rfl⟩
  | cons c t ih => intro init; exact ih (fill_from init c)

theorem alookup_foldl_fillMap {K A : Type _} [DecidableEq K] (k : K) :
    ∀ (ms : List (List (K × A))) (init : List (K × A)),
      alookup k (ms.foldl fillMap init) =
        (alookup k init).orElse (fun _ => ms.findSome? (alookup k)) := by
  intro ms
  induction ms with
  | nil =>
    intro init
    cases h : alookup k init <;> simp [h, Option.orElse, List.findSome?]
  | cons m t ih =>
    intro init
    show alookup k (t.foldl fillMap (fillMap init m)) = _
    rw [ih, alookup_fillMap]
    cases hi : alookup k init with
    | some w => simp [Option.orElse]
    | none =>
      cases hm : alookup k m with
      | some w => simp [Option.orElse, List.findSome?, hm]
      | none => simp [Option.orElse, List.findSome?, hm]

theorem findSome?_map_comp {α β γ : Type _} (g : α → β) (f : β → Option γ) :
    ∀ (l : List α), (l.map g).findSome? f = l.findSome? (fun a => f (g a)) := by
  intro l
  induction l with
  | nil => rfl
  | cons a t ih =>
    cases h : f (g a) with
    | some b => simp [List.findSome?, h]
    | none => simp [List.findSome?, h, ih]

/-! ## Claim C5: aggregation is first-write-wins -/

/-- C5. For every chain of configuration files in processing order (each
ancestor's `foreman.toml` from the working directory upward, then the
user-global file), the aggregated manifest binds each alias exactly once
(its key list has no duplicates), to the specification from the first
file in the chain that defines it; host entries likewise are never
overwritten by later files, the built-in defaults coming first. -/
theorem aggregate_spec (chain : List ConfigFile) (a h : String) :
    alookup a (aggregate chain).tools =
      chain.findSome? (fun c => alookup a c.tools) ∧
    ((aggregate chain).tools.map Prod.fst).Nodup ∧
    alookup h (aggregate chain).hosts =
      (alookup h new_with_defaults.hosts).orElse
        (fun _ => chain.findSome? (fun c => alookup h c.hosts)) := by
  obtain ⟨htools, hhosts⟩ := aggregate_components chain new_with_defaults
  refine ⟨?_, ?_, ?_⟩
  · rw [aggregate, htools, alookup_foldl_fillMap,
      findSome?_map_comp ConfigFile.tools (alookup a)]
    show Option.orElse none _ = _
    simp [Option.orElse]
  · rw [aggregate, htools]
    exact foldl_fillMap_nodupKeys _ _ (by simp [new_with_defaults])
  · rw [aggregate, hhosts, alookup_foldl_fillMap,
      findSome?_map_comp ConfigFile.hosts (alookup h)]

/-! ## Claim C7: `save` is not atomic -/

/-- C7 counterexample. `save` writes the index file in place, so an
invocation that fails mid-write leaves a state that is neither the
previous content nor the complete new serialization: writing the
pretty-printed index over a previous index and failing after one byte
leaves just `"\x7b"`. -/
theorem save_partial_write_observable :
    saveToolCache (some "\x7b\n  \"tools\": \x7b\x7d\n\x7d")
        "\x7b\n  \"tools\": \x7b\n    \"user/tool\": \x7b\n      \"versions\": [\n        \"1.0.0\"\n      ]\n    \x7d\n  \x7d\n\x7d"
        (some (WriteFault.partialFail 1)) = some "\x7b" ∧
    some "\x7b" ≠ some "\x7b\n  \"tools\": \x7b\x7d\n\x7d" ∧
    some "\x7b" ≠
      some "\x7b\n  \"tools\": \x7b\n    \"user/tool\": \x7b\n      \"versions\": [\n        \"1.0.0\"\n      ]\n    \x7d\n  \x7d\n\x7d" := by
  refine ⟨rfl, by decide, by decide⟩

/-- C7 amended. `save` persists the cache as pretty-printed JSON by
writing the serialization directly over the index file, with no
temporary-file-and-rename step, so it is not atomic: on success the file
holds the complete new serialization; when opening the file fails the
previous content is retained; but a failure during writing leaves a
truncated prefix of the new serialization, and apart from the open
failure the outcome never depends on the previous content. -/
theorem save_spec (old : Option String) (serialized : String)
    (fault : Option WriteFault) :
    saveToolCache old serialized none = some serialized ∧
    saveToolCache old serialized (some WriteFault.createFail) = old ∧
    (∀ k, saveToolCache old serialized (some (WriteFault.partialFail k)) =
      some (serialized.take k)) ∧
    (∀ old', fault ≠ some WriteFault.createFail →
      saveToolCache old serialized fault = saveToolCache old' serialized fault) := by
  refine ⟨rfl, rfl, fun _ => rfl, ?_⟩
  intro old' hfault
  cases fault with
  | none => rfl
  | some f =>
    cases f with
    | createFail => exact absurd rfl hfault
    | partialFail k => rfl

/-! ## Claim C8: `load` -/

/-- C8. `load` returns the empty cache when the index file is absent,
the deserialized cache when it exists and parses, and a
tool-cache-parsing error when it exists but does not parse — an
unparsable index is never silently reset to any cache value at all. -/
theorem load_spec {C : Type _} (empty : C) (parse : String → Option C) :
    loadToolCache empty parse FileState.absent = Except.ok empty ∧
    (∀ s c, parse s = some c →
      loadToolCache empty parse (FileState.present s) = Except.ok c) ∧
    (∀ s, parse s = none →
      loadToolCache empty parse (FileState.present s) =
        Except.error LoadError.toolCacheParsing) ∧
    (∀ s, parse s = none → ∀ c,
      loadToolCache empty parse (FileState.present s) ≠ Except.ok c) := by
  refine ⟨rfl, ?_, ?_, ?_⟩
  · intro s c h
    simp [loadToolCache, h]
  · intro s h
    simp [loadToolCache, h]
  · intro s h c
    simp [loadToolCache, h]

/-! ## Witnesses -/

/-- Witness for `choose_asset_spec` at a concrete release and keyword
list with no match. -/
theorem choose_asset_spec_witness :
    strContains "tool-linux.zip" "win64" = false :=
  (choose_asset_spec sampleRelease1 ["win64"]).1.mp rfl "win64" (by decide)
    { url := "https://example.com/1", name := "tool-linux.zip" } (by decide)

/-- Witness for `download_select_spec`: on the sample releases with
requirement `≤ 1`, the selected triple is a survivor. -/
theorem download_select_spec_witness :
    (1, 0, sampleRelease1) ∈
      semverReleases sampleParse ["linux"] [sampleRelease2, sampleRelease1] :=
  ((download_select_spec sampleParse ["linux"] (fun v => decide (v ≤ 1))
    [sampleRelease2, sampleRelease1]).2.2.2.2.1 1 0 sampleRelease1 (by rfl)).1

/-- Witness for `download_if_necessary_spec`: with stored versions
`[1, 2, 3]` and requirement `≤ 2` the result is `ok 2`, never the
fallback. -/
theorem download_if_necessary_spec_witness :
    download_if_necessary (some [1, 2, 3]) (fun v => decide (v ≤ 2))
      (Except.error "offline") = Except.ok 2 := by
  obtain ⟨v, hv, hreq, hmax, heq, _⟩ :=
    (download_if_necessary_spec [1, 2, 3] (fun v => decide (v ≤ 2)) (by decide)
      (Except.error "offline") (Except.error "other")).1 ⟨2, by decide, by decide⟩
  have h2 : (2 : Nat) ≤ v := hmax 2 (by decide) (by decide)
  have hv2 : v ≤ 2 := by simpa using hreq
  have hveq : v = 2 := le_antisymm hv2 h2
  rw [hveq] at heq
  exact heq

/-- Witness for `cache_key_spec`: github `User/Repo` and gitlab
`user/repo` give case-insensitively distinct cache keys under the ASCII
lowercase map. -/
theorem cache_key_spec_witness :
    ¬ ciEq (fun c => [c.toLower])
      (cache_key
        { host := "https://github.com"
          path := "User/Repo"
          protocol := Protocol.github })
      (cache_key
        { host := "https://gitlab.com"
          path := "user/repo"
          protocol := Protocol.gitlab }) :=
  (cache_key_spec (fun c => [c.toLower]) (by decide)
    { host := "https://github.com", path := "User/Repo", protocol := Protocol.github }
    { host := "https://gitlab.com", path := "user/repo", protocol := Protocol.gitlab }
    rfl rfl (by decide)).2.2.2

/-- Witness for `save_spec`: a partial write has the same outcome
whatever the previous content was. -/
theorem save_spec_witness :
    saveToolCache (some "previous index") "new index"
        (some (WriteFault.partialFail 3)) =
      saveToolCache (some "another index") "new index"
        (some (WriteFault.partialFail 3)) :=
  (save_spec (some "previous index") "new index"
    (some (WriteFault.partialFail 3))).2.2.2 (some "another index") (by decide)

/-- Witness for `load_spec`: a parsable index file loads to the parsed
cache. -/
theorem load_spec_witness :
    loadToolCache (0 : Nat) (fun s => if s = "index" then some 7 else none)
      (FileState.present "index") = Except.ok 7 :=
  (load_spec 0 (fun s => if s = "index" then some 7 else none)).2.1
    "index" 7 (by decide)

/-- Witness for `ciString_hash_coherent`: two casings of the same tool
path feed the hasher identical bytes under the ASCII lowercase map. -/
theorem ciString_hash_coherent_witness :
    ciHashStream (fun c => [c.toLower]) "User/Tool" =
      ciHashStream (fun c => [c.toLower]) "user/tool" :=
  ciString_hash_coherent (fun c => [c.toLower]) "User/Tool" "user/tool" (by decide)

/-- Witness for `download_select_ignores_prerelease`: flipping a sample
release's prerelease flag leaves the selection unchanged. -/
theorem download_select_ignores_prerelease_witness :
    Except.map eraseTriple (downloadSelect sampleParse ["linux"]
        (fun v => decide (v ≤ 1)) [sampleRelease2, sampleRelease1]) =
      Except.map eraseTriple (downloadSelect sampleParse ["linux"]
        (fun v => decide (v ≤ 1)) [sampleRelease2, sampleRelease1Pre]) :=
  download_select_ignores_prerelease sampleParse ["linux"]
    (fun v => decide (v ≤ 1)) [sampleRelease2, sampleRelease1]
    [sampleRelease2, sampleRelease1Pre] (by decide)

end Foreman
